import Mathlib

/-!
Shallow embedding of the 1-out-of-2 oblivious-transfer core from `src/lib.rs`.

The Rust code builds on two external primitives that the repository does not
reimplement: the Ristretto prime-order group of `curve25519_dalek` and the
SHA-256 hash of `sha2`.  Following the source's use of these libraries, the
group is embedded as an arbitrary module over a commutative ring of scalars
(scalar multiplication, point addition/subtraction, and a distinguished
basepoint are exactly the operations `lib.rs` uses), the canonical compressed
encoding `compress` as an arbitrary function to bytes, and SHA-256 as an
arbitrary function on byte strings whose relevant property — a fixed 32-byte
output — enters theorems as an explicit hypothesis.  Bytes are `Nat`s; `u8`
XOR never overflows, so `Nat.xor` embeds it exactly.

Randomness: `OsRng` sampling of a private scalar is embedded by passing the
sampled scalar as an explicit argument (the spec's §9 design note models the
randomness source as an injected capability).
-/

namespace OT

/-- Byte strings (`Vec<u8>` / `&[u8]`): lists of naturals. -/
abbrev Bytes := List Nat

section Defs

variable {Scalar Point : Type} [CommRing Scalar] [AddCommGroup Point]
  [Module Scalar Point]

/-- `OTSender` (Alice): retained private scalar and public element. -/
structure OTSender (Scalar Point : Type) where
  private_key : Scalar
  public_key : Point

/-- `OTReceiver` (Bob): choice bit, private scalar, public element. -/
structure OTReceiver (Scalar Point : Type) where
  choice : Bool
  private_key : Scalar
  public_key : Point

/-- `AliceMessage1` (Msg1, Sender → Receiver): the sender's public element. -/
structure AliceMessage1 (Point : Type) where
  public_key : Point

/-- `BobMessage` (Msg2, Receiver → Sender): the receiver's public element. -/
structure BobMessage (Point : Type) where
  public_key : Point

/-- `AliceMessage2` (Msg3, Sender → Receiver): the two ciphertexts. -/
structure AliceMessage2 where
  encrypted_m0 : Bytes
  encrypted_m1 : Bytes
  deriving DecidableEq

/-- `hash_point`: hash the canonical compressed encoding of a point to get a
symmetric key. -/
def hash_point (sha256 : Bytes → Bytes) (compress : Point → Bytes)
    (point : Point) : Bytes :=
  sha256 (compress point)

/-- The `while keystream.len() < plaintext.len()` loop of `xor_encrypt`:
append `sha256 current_key` to the keystream and continue with the digest as
the new key.  The Rust loop terminates because every SHA-256 digest has 32
bytes; here the same loop runs on explicit fuel, and `plen` units of fuel are
enough whenever digests are nonempty (each iteration grows the keystream by
at least one byte). -/
def keystream_loop (sha256 : Bytes → Bytes) (plen : Nat) :
    Nat → Bytes → Bytes → Bytes
  | 0, keystream, _ => keystream
  | fuel + 1, keystream, current_key =>
    if keystream.length < plen then
      keystream_loop sha256 plen fuel (keystream ++ sha256 current_key)
        (sha256 current_key)
    else
      keystream

/-- `xor_encrypt`: hash-chain keystream XORed against the plaintext
(`plaintext.iter().zip(keystream.iter()).map(|(p, k)| p ^ k)`). -/
def xor_encrypt (sha256 : Bytes → Bytes) (plaintext key : Bytes) : Bytes :=
  let keystream :=
    keystream_loop sha256 plaintext.length plaintext.length [] key
  List.zipWith (fun p k => p ^^^ k) plaintext keystream

/-- `xor_decrypt`: identical to encryption (XOR is self-inverse). -/
def xor_decrypt (sha256 : Bytes → Bytes) (ciphertext key : Bytes) : Bytes :=
  xor_encrypt sha256 ciphertext key

/-- `OTSender::new` with the sampled private scalar passed explicitly:
public element `A = a * G`, message carrying `A`. -/
def OTSender.new (G : Point) (a : Scalar) :
    OTSender Scalar Point × AliceMessage1 Point :=
  let public_key := a • G
  ({ private_key := a, public_key := public_key }, { public_key := public_key })

/-- `OTSender::send_encrypted`: candidate secrets `k0 = a * B` and
`k1 = a * (B - A)`, hashed to keys, each plaintext encrypted under its key. -/
def OTSender.send_encrypted (sha256 : Bytes → Bytes)
    (compress : Point → Bytes) (self : OTSender Scalar Point)
    (bob_message : BobMessage Point) (m0 m1 : Bytes) : AliceMessage2 :=
  let k0_point := self.private_key • bob_message.public_key
  let k1_point :=
    self.private_key • (bob_message.public_key - self.public_key)
  let k0 := hash_point sha256 compress k0_point
  let k1 := hash_point sha256 compress k1_point
  { encrypted_m0 := xor_encrypt sha256 m0 k0
    encrypted_m1 := xor_encrypt sha256 m1 k1 }

/-- `OTReceiver::new` with the sampled private scalar passed explicitly:
`B = b * G`, plus `A` iff the choice bit is set. -/
def OTReceiver.new (G : Point) (choice : Bool) (b : Scalar)
    (alice_msg : AliceMessage1 Point) :
    OTReceiver Scalar Point × BobMessage Point :=
  let base := b • G
  let public_key := if choice then base + alice_msg.public_key else base
  ({ choice := choice, private_key := b, public_key := public_key },
   { public_key := public_key })

/-- `OTReceiver::receive`: shared secret `k = b * A`, hashed to a key, used to
decrypt the ciphertext selected by the stored choice bit. -/
def OTReceiver.receive (sha256 : Bytes → Bytes) (compress : Point → Bytes)
    (self : OTReceiver Scalar Point) (alice_msg2 : AliceMessage2)
    (alice_msg1 : AliceMessage1 Point) : Bytes :=
  let k_point := self.private_key • alice_msg1.public_key
  let k := hash_point sha256 compress k_point
  if self.choice then
    xor_decrypt sha256 alice_msg2.encrypted_m1 k
  else
    xor_decrypt sha256 alice_msg2.encrypted_m0 k

/-- The hash chain underlying the keystream of `xor_encrypt`: block 1 is
`sha256 key`, block `i+1` is `sha256` of block `i`; `chainBlocks sha256 key n`
is the list of the first `n` blocks. -/
def chainBlocks (sha256 : Bytes → Bytes) : Bytes → Nat → List Bytes
  | _, 0 => []
  | cur, n + 1 => sha256 cur :: chainBlocks sha256 (sha256 cur) n

/-- `n`-fold iteration of the hash, used to name the key reached after `n`
blocks of the chain. -/
def iterHash (sha256 : Bytes → Bytes) : Bytes → Nat → Bytes
  | cur, 0 => cur
  | cur, n + 1 => iterHash sha256 (sha256 cur) n

/-- The first `n` bytes of the hash chain of `key` (with `n` blocks, more than
enough whenever digests are nonempty). -/
def keystream_bytes (sha256 : Bytes → Bytes) (key : Bytes) (n : Nat) : Bytes :=
  ((chainBlocks sha256 key n).flatten).take n

/-- Modelled from the spec, §4.2: the keystream is the concatenation of
hash-chain blocks "until length ≥ len(data), then truncated to len(data)".
With 32-byte digests, `(n + 31) / 32` blocks is the first count whose
concatenation reaches `n` bytes. -/
def spec_keystream (sha256 : Bytes → Bytes) (key : Bytes) (n : Nat) : Bytes :=
  ((chainBlocks sha256 key ((n + 31) / 32)).flatten).take n

/-- Modelled from the spec, §6/§7: the repository passes group elements
between the parties as already-decoded library points, so the canonical
compressed decoding lives in the external group library; it is modelled as a
fallible `decode`.  Receiver initialisation on a wire-format Msg1 decodes the
sender's public element first and surfaces `none` (a rejected-input error) on
undecodable bytes. -/
def OTReceiver.new_wire (G : Point) (decode : Bytes → Option Point)
    (choice : Bool) (b : Scalar) (msg1_bytes : Bytes) :
    Option (OTReceiver Scalar Point × BobMessage Point) :=
  match decode msg1_bytes with
  | none => none
  | some p => some (OTReceiver.new G choice b { public_key := p })

/-- Modelled from the spec, §6/§7: sender encryption on a wire-format Msg2
decodes the receiver's public element first and surfaces `none` on
undecodable bytes. -/
def OTSender.send_encrypted_wire (sha256 : Bytes → Bytes)
    (compress : Point → Bytes) (decode : Bytes → Option Point)
    (self : OTSender Scalar Point) (msg2_bytes : Bytes) (m0 m1 : Bytes) :
    Option AliceMessage2 :=
  match decode msg2_bytes with
  | none => none
  | some p =>
    some (OTSender.send_encrypted sha256 compress self { public_key := p }
      m0 m1)

/-- Modelled from the spec, §6/§7: receiver decryption on a wire-format Msg1
decodes the sender's public element first and surfaces `none` on undecodable
bytes. -/
def OTReceiver.receive_wire (sha256 : Bytes → Bytes)
    (compress : Point → Bytes) (decode : Bytes → Option Point)
    (self : OTReceiver Scalar Point) (alice_msg2 : AliceMessage2)
    (msg1_bytes : Bytes) : Option Bytes :=
  match decode msg1_bytes with
  | none => none
  | some p => some (OTReceiver.receive sha256 compress self alice_msg2
      { public_key := p })

end Defs

/-! Concrete instantiation used to exercise the theorems: the group is the
cyclic group of order 5 (a `ZMod 5`-module over itself, basepoint 1), the
hash is a fixed-width 32-byte digest separating the small inputs that occur,
and compression/decoding is the evident one-byte encoding. -/

/-- A stand-in 32-byte hash for concrete runs: 32 copies of a byte derived
from the input's sum and length. -/
def toyHash (x : Bytes) : Bytes :=
  List.replicate 32 ((x.foldl (fun a b => a + b) 0 + x.length + 1) % 256)

/-- Basepoint of the concrete group. -/
def G5 : ZMod 5 := 1

/-- One-byte canonical encoding of the concrete group. -/
def toyCompress (p : ZMod 5) : Bytes := [p.val]

/-- Fallible decoding matching `toyCompress`: bytes that are not a single
value below 5 do not decode to a group element. -/
def toyDecode (bs : Bytes) : Option (ZMod 5) :=
  match bs with
  | [v] => if v < 5 then some (v : ZMod 5) else none
  | _ => none

/-! Lemmas about the hash-chain keystream and the XOR cipher. -/

section CipherLemmas

variable (sha256 : Bytes → Bytes)

theorem chainBlocks_add (a : Nat) : ∀ (b : Nat) (cur : Bytes),
    chainBlocks sha256 cur (a + b) =
      chainBlocks sha256 cur a ++
        chainBlocks sha256 (iterHash sha256 cur a) b := by
  induction a with
  | zero => intro b cur; simp [chainBlocks, iterHash]
  | succ n ih =>
    intro b cur
    have h : n + 1 + b = (n + b) + 1 := by omega
    rw [h]
    show sha256 cur :: chainBlocks sha256 (sha256 cur) (n + b) = _
    rw [ih b (sha256 cur)]
    simp [chainBlocks, iterHash]

theorem le_length_flatten_chainBlocks (hlen : ∀ x, 0 < (sha256 x).length) :
    ∀ (n : Nat) (cur : Bytes),
      n ≤ ((chainBlocks sha256 cur n).flatten).length := by
  intro n
  induction n with
  | zero => intro cur; simp
  | succ m ih =>
    intro cur
    show m + 1 ≤
      ((sha256 cur :: chainBlocks sha256 (sha256 cur) m).flatten).length
    rw [List.flatten_cons, List.length_append]
    have h1 := hlen cur
    have h2 := ih (sha256 cur)
    omega

theorem take_flatten_chainBlocks_mono {j1 j2 n : Nat} (cur : Bytes)
    (hj : j1 ≤ j2)
    (hn : n ≤ ((chainBlocks sha256 cur j1).flatten).length) :
    ((chainBlocks sha256 cur j2).flatten).take n =
      ((chainBlocks sha256 cur j1).flatten).take n := by
  have h : j2 = j1 + (j2 - j1) := by omega
  rw [h, chainBlocks_add sha256 j1 (j2 - j1) cur, List.flatten_append,
    List.take_append_of_le_length hn]

theorem take_flatten_chainBlocks_congr {j1 j2 n : Nat} (cur : Bytes)
    (h1 : n ≤ ((chainBlocks sha256 cur j1).flatten).length)
    (h2 : n ≤ ((chainBlocks sha256 cur j2).flatten).length) :
    ((chainBlocks sha256 cur j1).flatten).take n =
      ((chainBlocks sha256 cur j2).flatten).take n := by
  rcases Nat.le_total j1 j2 with h | h
  · exact (take_flatten_chainBlocks_mono sha256 cur h h1).symm
  · exact take_flatten_chainBlocks_mono sha256 cur h h2

theorem keystream_loop_le_length (hlen : ∀ x, 0 < (sha256 x).length)
    (plen : Nat) : ∀ (fuel : Nat) (ks cur : Bytes),
      plen ≤ ks.length + fuel →
      plen ≤ (keystream_loop sha256 plen fuel ks cur).length := by
  intro fuel
  induction fuel with
  | zero => intro ks cur h; simpa [keystream_loop] using h
  | succ f ih =>
    intro ks cur h
    rw [keystream_loop]
    by_cases hc : ks.length < plen
    · rw [if_pos hc]
      apply ih
      have := hlen cur
      rw [List.length_append]
      omega
    · rw [if_neg hc]
      omega

theorem keystream_loop_eq_chain (plen : Nat) :
    ∀ (fuel : Nat) (ks cur : Bytes), ∃ j, j ≤ fuel ∧
      keystream_loop sha256 plen fuel ks cur =
        ks ++ (chainBlocks sha256 cur j).flatten := by
  intro fuel
  induction fuel with
  | zero =>
    intro ks cur
    exact ⟨0, Nat.le_refl 0, by simp [keystream_loop, chainBlocks]⟩
  | succ f ih =>
    intro ks cur
    by_cases hc : ks.length < plen
    · obtain ⟨j, hj, hrun⟩ := ih (ks ++ sha256 cur) (sha256 cur)
      refine ⟨j + 1, by omega, ?_⟩
      rw [keystream_loop, if_pos hc, hrun]
      simp [chainBlocks]
    · exact ⟨0, by omega, by rw [keystream_loop, if_neg hc]; simp [chainBlocks]⟩

theorem keystream_loop_take (hlen : ∀ x, 0 < (sha256 x).length)
    (key : Bytes) {plen n : Nat} (h : n ≤ plen) :
    (keystream_loop sha256 plen plen [] key).take n =
      keystream_bytes sha256 key n := by
  obtain ⟨j, hj, hrun⟩ := keystream_loop_eq_chain sha256 plen plen [] key
  have hlong : plen ≤ (keystream_loop sha256 plen plen [] key).length :=
    keystream_loop_le_length sha256 hlen plen plen [] key (by simp)
  rw [hrun] at hlong ⊢
  rw [List.nil_append] at hlong ⊢
  unfold keystream_bytes
  exact take_flatten_chainBlocks_congr sha256 key (le_trans h hlong)
    (le_length_flatten_chainBlocks sha256 hlen n key)

theorem keystream_bytes_length (hlen : ∀ x, 0 < (sha256 x).length)
    (key : Bytes) (n : Nat) : (keystream_bytes sha256 key n).length = n := by
  unfold keystream_bytes
  rw [List.length_take]
  exact Nat.min_eq_left (le_length_flatten_chainBlocks sha256 hlen n key)

theorem xor_encrypt_eq_zip (hlen : ∀ x, 0 < (sha256 x).length)
    (d k : Bytes) :
    xor_encrypt sha256 d k =
      List.zipWith (fun p q => p ^^^ q) d
        (keystream_bytes sha256 k d.length) := by
  show List.zipWith (fun p q => p ^^^ q) d
      (keystream_loop sha256 d.length d.length [] k) = _
  calc List.zipWith (fun p q => p ^^^ q) d
        (keystream_loop sha256 d.length d.length [] k)
      = (List.zipWith (fun p q => p ^^^ q) d
          (keystream_loop sha256 d.length d.length [] k)).take d.length := by
        refine (List.take_of_length_le ?_).symm
        rw [List.length_zipWith]
        omega
    _ = List.zipWith (fun p q => p ^^^ q) d
          ((keystream_loop sha256 d.length d.length [] k).take d.length) := by
        rw [List.take_zipWith, List.take_length]
    _ = List.zipWith (fun p q => p ^^^ q) d
          (keystream_bytes sha256 k d.length) := by
        rw [keystream_loop_take sha256 hlen k (Nat.le_refl d.length)]

theorem xor_encrypt_length (hlen : ∀ x, 0 < (sha256 x).length)
    (d k : Bytes) : (xor_encrypt sha256 d k).length = d.length := by
  rw [xor_encrypt_eq_zip sha256 hlen, List.length_zipWith,
    keystream_bytes_length sha256 hlen]
  omega

theorem zipWith_xor_cancel : ∀ (d ks : Bytes), d.length ≤ ks.length →
    List.zipWith (fun p q => p ^^^ q)
      (List.zipWith (fun p q => p ^^^ q) d ks) ks = d := by
  intro d
  induction d with
  | nil => intro ks h; simp
  | cons a d ih =>
    intro ks h
    cases ks with
    | nil => simp at h
    | cons b ks' =>
      simp only [List.zipWith_cons_cons]
      rw [ih ks' (by simpa using h)]
      rw [Nat.xor_assoc, Nat.xor_self, Nat.xor_zero]

theorem xor_encrypt_involutive (hlen : ∀ x, 0 < (sha256 x).length)
    (d k : Bytes) : xor_decrypt sha256 (xor_encrypt sha256 d k) k = d := by
  unfold xor_decrypt
  have hl : (xor_encrypt sha256 d k).length = d.length :=
    xor_encrypt_length sha256 hlen d k
  rw [xor_encrypt_eq_zip sha256 hlen (xor_encrypt sha256 d k) k, hl,
    xor_encrypt_eq_zip sha256 hlen d k]
  apply zipWith_xor_cancel
  rw [keystream_bytes_length sha256 hlen]

theorem getD_zipWith (f : Nat → Nat → Nat) (l1 l2 : Bytes) (i : Nat)
    (h1 : i < l1.length) (h2 : i < l2.length) :
    (List.zipWith f l1 l2).getD i 0 = f (l1.getD i 0) (l2.getD i 0) := by
  simp [List.getD_eq_getElem?_getD, List.getElem?_zipWith,
    List.getElem?_eq_getElem, h1, h2]

theorem keystream_bytes_getD_congr (hlen : ∀ x, 0 < (sha256 x).length)
    (key : Bytes) {n1 n2 i : Nat} (h1 : i < n1) (h2 : i < n2) :
    (keystream_bytes sha256 key n1).getD i 0 =
      (keystream_bytes sha256 key n2).getD i 0 := by
  have l1 := le_length_flatten_chainBlocks sha256 hlen n1 key
  have l2 := le_length_flatten_chainBlocks sha256 hlen n2 key
  have e : ((chainBlocks sha256 key n1).flatten).take (i + 1) =
      ((chainBlocks sha256 key n2).flatten).take (i + 1) :=
    take_flatten_chainBlocks_congr sha256 key (by omega) (by omega)
  unfold keystream_bytes
  rw [List.getD_eq_getElem?_getD, List.getD_eq_getElem?_getD,
    List.getElem?_take_of_lt h1, List.getElem?_take_of_lt h2,
    ← List.getElem?_take_of_lt
      (l := (chainBlocks sha256 key n1).flatten) (Nat.lt_succ_self i),
    e, List.getElem?_take_of_lt (Nat.lt_succ_self i)]

theorem xor_encrypt_getD (hlen : ∀ x, 0 < (sha256 x).length)
    (d k : Bytes) {i : Nat} (hi : i < d.length) :
    (xor_encrypt sha256 d k).getD i 0 =
      d.getD i 0 ^^^ (keystream_bytes sha256 k d.length).getD i 0 := by
  rw [xor_encrypt_eq_zip sha256 hlen]
  exact getD_zipWith _ d _ i hi
    (by rw [keystream_bytes_length sha256 hlen]; exact hi)

theorem xor_decrypt_wrong_key_ne (hlen : ∀ x, 0 < (sha256 x).length)
    (m kS kR : Bytes) (i : Nat) (hi : i < m.length)
    (hne : (keystream_bytes sha256 kS m.length).getD i 0 ≠
      (keystream_bytes sha256 kR m.length).getD i 0) :
    xor_decrypt sha256 (xor_encrypt sha256 m kS) kR ≠ m := by
  intro heq
  unfold xor_decrypt at heq
  have hclen : (xor_encrypt sha256 m kS).length = m.length :=
    xor_encrypt_length sha256 hlen m kS
  have hg := congrArg (fun l => List.getD l i 0) heq
  simp only at hg
  rw [xor_encrypt_getD sha256 hlen (xor_encrypt sha256 m kS) kR
    (by rw [hclen]; exact hi)] at hg
  rw [hclen, xor_encrypt_getD sha256 hlen m kS hi] at hg
  rw [Nat.xor_assoc] at hg
  have h0 : (keystream_bytes sha256 kS m.length).getD i 0 ^^^
      (keystream_bytes sha256 kR m.length).getD i 0 = 0 := by
    have hm : m.getD i 0 ^^^
        ((keystream_bytes sha256 kS m.length).getD i 0 ^^^
          (keystream_bytes sha256 kR m.length).getD i 0) =
        m.getD i 0 ^^^ 0 := by rw [Nat.xor_zero]; exact hg
    exact Nat.xor_right_inj.mp hm
  exact hne (Nat.xor_left_inj.mp
    (h0.trans (Nat.xor_self
      ((keystream_bytes sha256 kR m.length).getD i 0)).symm))

theorem length_flatten_chainBlocks32 (hlen32 : ∀ x, (sha256 x).length = 32) :
    ∀ (n : Nat) (cur : Bytes),
      ((chainBlocks sha256 cur n).flatten).length = 32 * n := by
  intro n
  induction n with
  | zero => intro cur; simp [chainBlocks]
  | succ m ih =>
    intro cur
    show ((sha256 cur :: chainBlocks sha256 (sha256 cur) m).flatten).length = _
    rw [List.flatten_cons, List.length_append, hlen32 cur, ih (sha256 cur)]
    omega

theorem spec_keystream_eq_keystream_bytes (hlen32 : ∀ x, (sha256 x).length = 32)
    (key : Bytes) (n : Nat) :
    spec_keystream sha256 key n = keystream_bytes sha256 key n := by
  unfold spec_keystream keystream_bytes
  apply take_flatten_chainBlocks_congr
  · rw [length_flatten_chainBlocks32 sha256 hlen32]
    omega
  · exact le_length_flatten_chainBlocks sha256
      (fun x => by rw [hlen32 x]; omega) n key

end CipherLemmas

/-! Protocol-level lemmas. -/

section ProtocolLemmas

variable {Scalar Point : Type} [CommRing Scalar] [AddCommGroup Point]
  [Module Scalar Point]
variable (sha256 : Bytes → Bytes) (compress : Point → Bytes)

theorem ot_run_receive_eq (hlen : ∀ x, 0 < (sha256 x).length) (G : Point)
    (a b : Scalar) (choice : Bool) (m0 m1 : Bytes) :
    OTReceiver.receive sha256 compress
      (OTReceiver.new G choice b (OTSender.new G a).2).1
      (OTSender.send_encrypted sha256 compress (OTSender.new G a).1
        (OTReceiver.new G choice b (OTSender.new G a).2).2 m0 m1)
      (OTSender.new G a).2 = if choice then m1 else m0 := by
  have hkey : a • (b • G) = b • (a • G) := by
    rw [smul_smul, smul_smul, mul_comm]
  cases choice with
  | false =>
    simp only [OTSender.new, OTReceiver.new, OTSender.send_encrypted,
      OTReceiver.receive, Bool.false_eq_true, if_false]
    rw [hkey]
    exact xor_encrypt_involutive sha256 hlen m0 _
  | true =>
    simp only [OTSender.new, OTReceiver.new, OTSender.send_encrypted,
      OTReceiver.receive, if_true]
    rw [add_sub_cancel_right, hkey]
    exact xor_encrypt_involutive sha256 hlen m1 _

end ProtocolLemmas

/-! Facts about the concrete 32-byte stand-in hash. -/

theorem toyHash_len32 : ∀ x, (toyHash x).length = 32 := by
  intro x
  simp [toyHash]

theorem toyHash_len : ∀ x, 0 < (toyHash x).length := by
  intro x
  rw [toyHash_len32 x]
  omega

/-! The claims. -/

section Claims

variable {Scalar Point : Type} [CommRing Scalar] [AddCommGroup Point]
  [Module Scalar Point]

/-- C1: end-to-end correctness.  For all plaintexts `m0, m1`, every choice
bit, and every pair of sampled private scalars, running `OTSender::new`,
`OTReceiver::new`, `send_encrypted` and `receive` in sequence yields exactly
`m0` when the choice bit is false and exactly `m1` when it is true (for any
group and any fixed-width hash with nonempty digests). -/
theorem ot_end_to_end_correct (sha256 : Bytes → Bytes)
    (compress : Point → Bytes) (hlen : ∀ x, 0 < (sha256 x).length)
    (G : Point) (a b : Scalar) (choice : Bool) (m0 m1 : Bytes) :
    OTReceiver.receive sha256 compress
      (OTReceiver.new G choice b (OTSender.new G a).2).1
      (OTSender.send_encrypted sha256 compress (OTSender.new G a).1
        (OTReceiver.new G choice b (OTSender.new G a).2).2 m0 m1)
      (OTSender.new G a).2 = if choice then m1 else m0 :=
  ot_run_receive_eq sha256 compress hlen G a b choice m0 m1

/-- Witness for C1: a concrete run over the order-5 group with the 32-byte
stand-in hash, choice bit true, recovering `m1 = [7, 1]`. -/
theorem ot_end_to_end_correct_witness :
    (∀ x, 0 < (toyHash x).length) ∧
    OTReceiver.receive toyHash toyCompress
      (OTReceiver.new G5 true (2 : ZMod 5) (OTSender.new G5 (3 : ZMod 5)).2).1
      (OTSender.send_encrypted toyHash toyCompress
        (OTSender.new G5 (3 : ZMod 5)).1
        (OTReceiver.new G5 true (2 : ZMod 5)
          (OTSender.new G5 (3 : ZMod 5)).2).2 [2] [7, 1])
      (OTSender.new G5 (3 : ZMod 5)).2 = if true then [7, 1] else [2] :=
  ⟨toyHash_len,
    ot_end_to_end_correct toyHash toyCompress toyHash_len G5 3 2 true [2]
      [7, 1]⟩

/-- C2: key agreement.  The receiver's shared-secret point `b • A` equals the
sender's candidate point `a • B` when the choice bit is false, and
`a • (B - A)` when it is true. -/
theorem key_agreement (G : Point) (a b : Scalar) (choice : Bool) :
    (OTReceiver.new G choice b (OTSender.new G a).2).1.private_key •
        (OTSender.new G a).2.public_key =
      if choice then
        (OTSender.new G a).1.private_key •
          ((OTReceiver.new G choice b (OTSender.new G a).2).2.public_key -
            (OTSender.new G a).1.public_key)
      else
        (OTSender.new G a).1.private_key •
          (OTReceiver.new G choice b (OTSender.new G a).2).2.public_key := by
  cases choice with
  | false =>
    simp only [OTSender.new, OTReceiver.new, Bool.false_eq_true, if_false]
    rw [smul_smul, smul_smul, mul_comm]
  | true =>
    simp only [OTSender.new, OTReceiver.new, if_true]
    rw [add_sub_cancel_right, smul_smul, smul_smul, mul_comm]

/-- C3: cipher involution.  For every key and every data byte string,
applying the keystream cipher twice with the same key returns the data, and
`xor_decrypt` is the identical operation as `xor_encrypt`. -/
theorem cipher_involution (sha256 : Bytes → Bytes)
    (hlen : ∀ x, 0 < (sha256 x).length) (k d : Bytes) :
    xor_encrypt sha256 (xor_encrypt sha256 d k) k = d ∧
    xor_decrypt sha256 d k = xor_encrypt sha256 d k :=
  ⟨xor_encrypt_involutive sha256 hlen d k, rfl⟩

/-- Witness for C3: the involution at a concrete key and data. -/
theorem cipher_involution_witness :
    (∀ x, 0 < (toyHash x).length) ∧
    (xor_encrypt toyHash (xor_encrypt toyHash [1, 2] [9]) [9] = [1, 2] ∧
      xor_decrypt toyHash [1, 2] [9] = xor_encrypt toyHash [1, 2] [9]) :=
  ⟨toyHash_len, cipher_involution toyHash toyHash_len [9] [1, 2]⟩

/-- C5: receiver public-element formula.  `OTReceiver::new` produces a public
element `b • G + A` when the choice bit is true and `b • G` otherwise, and
retains exactly that choice bit and scalar in the state (whose public element
is the one sent). -/
theorem receiver_public_element (G : Point) (choice : Bool) (b : Scalar)
    (msg1 : AliceMessage1 Point) :
    ((OTReceiver.new G choice b msg1).2.public_key =
      if choice then b • G + msg1.public_key else b • G) ∧
    (OTReceiver.new G choice b msg1).1.choice = choice ∧
    (OTReceiver.new G choice b msg1).1.private_key = b ∧
    (OTReceiver.new G choice b msg1).1.public_key =
      (OTReceiver.new G choice b msg1).2.public_key := by
  cases choice <;> simp [OTReceiver.new]

/-- C4: keystream construction.  The cipher's output is the plaintext XORed
byte-for-byte against the hash-chain keystream (first block `hash(key)`, each
next block the hash of the previous one, concatenated until the keystream is
at least as long as the data and truncated to the data's length), stated both
as a list equation and index-wise. -/
theorem keystream_construction (sha256 : Bytes → Bytes)
    (hlen32 : ∀ x, (sha256 x).length = 32) (d k : Bytes) :
    xor_encrypt sha256 d k =
      List.zipWith (fun p q => p ^^^ q) d
        (spec_keystream sha256 k d.length) ∧
    ∀ i, i < d.length →
      (xor_encrypt sha256 d k).getD i 0 =
        d.getD i 0 ^^^ (spec_keystream sha256 k d.length).getD i 0 := by
  have hlen : ∀ x, 0 < (sha256 x).length := fun x => by rw [hlen32 x]; omega
  rw [spec_keystream_eq_keystream_bytes sha256 hlen32]
  exact ⟨xor_encrypt_eq_zip sha256 hlen d k,
    fun i hi => xor_encrypt_getD sha256 hlen d k hi⟩

/-- Witness for C4: the construction at a concrete data and key. -/
theorem keystream_construction_witness :
    (∀ x, (toyHash x).length = 32) ∧
    (xor_encrypt toyHash [5, 6] [1] =
      List.zipWith (fun p q => p ^^^ q) [5, 6]
        (spec_keystream toyHash [1] (List.length [5, 6])) ∧
    ∀ i, i < (List.length [5, 6]) →
      (xor_encrypt toyHash [5, 6] [1]).getD i 0 =
        List.getD [5, 6] i 0 ^^^
          (spec_keystream toyHash [1] (List.length [5, 6])).getD i 0) :=
  ⟨toyHash_len32, keystream_construction toyHash toyHash_len32 [5, 6] [1]⟩

/-- C6: length preservation and totality of encryption.  For plaintexts of
any (possibly unequal, possibly zero) lengths, `send_encrypted` returns a
message whose ciphertexts have exactly the plaintexts' lengths, and a run
with empty `m0` and choice bit false decrypts to the empty byte string. -/
theorem encrypt_total_lengths (sha256 : Bytes → Bytes)
    (compress : Point → Bytes) (hlen : ∀ x, 0 < (sha256 x).length)
    (self : OTSender Scalar Point) (bob_message : BobMessage Point)
    (m0 m1 : Bytes) (G : Point) (a b : Scalar) :
    (OTSender.send_encrypted sha256 compress self bob_message m0
        m1).encrypted_m0.length = m0.length ∧
    (OTSender.send_encrypted sha256 compress self bob_message m0
        m1).encrypted_m1.length = m1.length ∧
    OTReceiver.receive sha256 compress
      (OTReceiver.new G false b (OTSender.new G a).2).1
      (OTSender.send_encrypted sha256 compress (OTSender.new G a).1
        (OTReceiver.new G false b (OTSender.new G a).2).2 [] m1)
      (OTSender.new G a).2 = [] := by
  refine ⟨?_, ?_, ?_⟩
  · simp only [OTSender.send_encrypted]
    exact xor_encrypt_length sha256 hlen m0 _
  · simp only [OTSender.send_encrypted]
    exact xor_encrypt_length sha256 hlen m1 _
  · have h := ot_run_receive_eq sha256 compress hlen G a b false [] m1
    simpa using h

/-- Witness for C6: unequal concrete lengths (3 and 1) and the empty-`m0`
run over the order-5 group. -/
theorem encrypt_total_lengths_witness :
    (∀ x, 0 < (toyHash x).length) ∧
    ((OTSender.send_encrypted toyHash toyCompress
        (OTSender.new G5 (2 : ZMod 5)).1 { public_key := 3 } [4, 5, 6]
        [7]).encrypted_m0.length = List.length [4, 5, 6] ∧
    (OTSender.send_encrypted toyHash toyCompress
        (OTSender.new G5 (2 : ZMod 5)).1 { public_key := 3 } [4, 5, 6]
        [7]).encrypted_m1.length = List.length [7] ∧
    OTReceiver.receive toyHash toyCompress
      (OTReceiver.new G5 false (1 : ZMod 5) (OTSender.new G5 (2 : ZMod 5)).2).1
      (OTSender.send_encrypted toyHash toyCompress
        (OTSender.new G5 (2 : ZMod 5)).1
        (OTReceiver.new G5 false (1 : ZMod 5)
          (OTSender.new G5 (2 : ZMod 5)).2).2 [] [7])
      (OTSender.new G5 (2 : ZMod 5)).2 = []) :=
  ⟨toyHash_len,
    encrypt_total_lengths toyHash toyCompress toyHash_len
      (OTSender.new G5 (2 : ZMod 5)).1 { public_key := 3 } [4, 5, 6] [7] G5 2
      1⟩

/-- C9: receive depends only on the chosen ciphertext.  Two Msg3 values that
agree on the ciphertext at the index equal to the receiver's choice bit
produce identical outputs of `receive`. -/
theorem receive_chosen_only (sha256 : Bytes → Bytes)
    (compress : Point → Bytes) (self : OTReceiver Scalar Point)
    (msg1 : AliceMessage1 Point) (msg3 msg3' : AliceMessage2)
    (h : if self.choice then msg3.encrypted_m1 = msg3'.encrypted_m1
      else msg3.encrypted_m0 = msg3'.encrypted_m0) :
    OTReceiver.receive sha256 compress self msg3 msg1 =
      OTReceiver.receive sha256 compress self msg3' msg1 := by
  unfold OTReceiver.receive
  cases hc : self.choice with
  | false =>
    rw [hc] at h
    simp only [Bool.false_eq_true, if_false] at h ⊢
    rw [h]
  | true =>
    rw [hc] at h
    simp only [if_true] at h ⊢
    rw [h]

/-- Witness for C9: a receiver with choice bit false and two Msg3 values
differing only in the unchosen ciphertext. -/
theorem receive_chosen_only_witness :
    (if ({ choice := false, private_key := 1, public_key := 1 } :
          OTReceiver (ZMod 5) (ZMod 5)).choice
      then List.length ([] : Bytes) = 0 ∧ [1] = [1]
      else ([1] : Bytes) = [1]) ∧
    OTReceiver.receive toyHash toyCompress
        ({ choice := false, private_key := 1, public_key := 1 } :
          OTReceiver (ZMod 5) (ZMod 5))
        { encrypted_m0 := [1], encrypted_m1 := [2] } { public_key := 1 } =
      OTReceiver.receive toyHash toyCompress
        ({ choice := false, private_key := 1, public_key := 1 } :
          OTReceiver (ZMod 5) (ZMod 5))
        { encrypted_m0 := [1], encrypted_m1 := [9] } { public_key := 1 } :=
  ⟨by decide,
    receive_chosen_only toyHash toyCompress _ _ _ _ (by decide)⟩

/-- C10: keystream reuse under a fixed key.  The keystream depends only on
the key, so the XOR of two ciphertexts under the same key equals the XOR of
the plaintexts at every index below both lengths. -/
theorem keystream_reuse (sha256 : Bytes → Bytes)
    (hlen : ∀ x, 0 < (sha256 x).length) (k p q : Bytes) (i : Nat)
    (hp : i < p.length) (hq : i < q.length) :
    (xor_encrypt sha256 p k).getD i 0 ^^^ (xor_encrypt sha256 q k).getD i 0 =
      p.getD i 0 ^^^ q.getD i 0 := by
  rw [xor_encrypt_getD sha256 hlen p k hp,
    xor_encrypt_getD sha256 hlen q k hq,
    keystream_bytes_getD_congr sha256 hlen k hp hq]
  rw [Nat.xor_comm (q.getD i 0) ((keystream_bytes sha256 k q.length).getD i 0)]
  rw [Nat.xor_assoc]
  rw [Nat.xor_cancel_left]

/-- Witness for C10: concrete plaintexts of unequal lengths under one key. -/
theorem keystream_reuse_witness :
    (∀ x, 0 < (toyHash x).length) ∧ 0 < List.length [1, 2] ∧
    0 < List.length [7] ∧
    ((xor_encrypt toyHash [1, 2] [0]).getD 0 0 ^^^
        (xor_encrypt toyHash [7] [0]).getD 0 0 =
      List.getD [1, 2] 0 0 ^^^ List.getD [7] 0 0) :=
  ⟨toyHash_len, by decide, by decide,
    keystream_reuse toyHash toyHash_len [0] [1, 2] [7] 0 (by decide)
      (by decide)⟩

/-- C7, counterexample to the claim as stated: in a concrete run with choice
bit true and an empty `m0`, the receiver's key point `b • A` differs from the
sender's key point `a • B` for the unchosen index 0, yet decrypting the
unchosen ciphertext with the receiver's own derived key reproduces `m0`
exactly (both are empty). -/
theorem wrong_side_reproduces_empty :
    ((OTReceiver.new G5 true (1 : ZMod 5)
        (OTSender.new G5 (1 : ZMod 5)).2).1.private_key •
        (OTSender.new G5 (1 : ZMod 5)).2.public_key ≠
      (OTSender.new G5 (1 : ZMod 5)).1.private_key •
        (OTReceiver.new G5 true (1 : ZMod 5)
          (OTSender.new G5 (1 : ZMod 5)).2).2.public_key) ∧
    xor_decrypt toyHash
      (OTSender.send_encrypted toyHash toyCompress
        (OTSender.new G5 (1 : ZMod 5)).1
        (OTReceiver.new G5 true (1 : ZMod 5)
          (OTSender.new G5 (1 : ZMod 5)).2).2 [] [3]).encrypted_m0
      (hash_point toyHash toyCompress
        ((OTReceiver.new G5 true (1 : ZMod 5)
          (OTSender.new G5 (1 : ZMod 5)).2).1.private_key •
          (OTSender.new G5 (1 : ZMod 5)).2.public_key)) = [] := by
  refine ⟨by decide, ?_⟩
  rfl

/-- C7, amended: decrypting the ciphertext at the index NOT equal to the
receiver's choice bit with the receiver's own derived key does not reproduce
the corresponding plaintext whenever the keystream derived from the
receiver's key and the keystream derived from the sender's key for that index
differ at some position below that plaintext's length (differing key points
alone do not suffice: an empty plaintext is always reproduced, and the
separation must show up within the compared bytes). -/
theorem wrong_side_decrypt_ne (sha256 : Bytes → Bytes)
    (compress : Point → Bytes) (hlen : ∀ x, 0 < (sha256 x).length)
    (G : Point) (a b : Scalar) (choice : Bool) (m0 m1 : Bytes)
    (hne : ∃ i, i < (if choice then m0 else m1).length ∧
      (keystream_bytes sha256
        (hash_point sha256 compress
          ((OTSender.new G a).1.private_key •
            (if choice then
              (OTReceiver.new G choice b (OTSender.new G a).2).2.public_key
            else
              (OTReceiver.new G choice b (OTSender.new G a).2).2.public_key -
                (OTSender.new G a).1.public_key)))
        (if choice then m0 else m1).length).getD i 0 ≠
      (keystream_bytes sha256
        (hash_point sha256 compress
          ((OTReceiver.new G choice b (OTSender.new G a).2).1.private_key •
            (OTSender.new G a).2.public_key))
        (if choice then m0 else m1).length).getD i 0) :
    xor_decrypt sha256
      (if choice then
        (OTSender.send_encrypted sha256 compress (OTSender.new G a).1
          (OTReceiver.new G choice b (OTSender.new G a).2).2 m0
          m1).encrypted_m0
      else
        (OTSender.send_encrypted sha256 compress (OTSender.new G a).1
          (OTReceiver.new G choice b (OTSender.new G a).2).2 m0
          m1).encrypted_m1)
      (hash_point sha256 compress
        ((OTReceiver.new G choice b (OTSender.new G a).2).1.private_key •
          (OTSender.new G a).2.public_key)) ≠
      (if choice then m0 else m1) := by
  obtain ⟨i, hi, hd⟩ := hne
  cases choice with
  | true =>
    simp only [OTSender.new, OTReceiver.new, OTSender.send_encrypted,
      if_true] at hi hd ⊢
    exact xor_decrypt_wrong_key_ne sha256 hlen m0 _ _ i hi hd
  | false =>
    simp only [OTSender.new, OTReceiver.new, OTSender.send_encrypted,
      Bool.false_eq_true, if_false] at hi hd ⊢
    exact xor_decrypt_wrong_key_ne sha256 hlen m1 _ _ i hi hd

/-- Witness for the amended C7: a concrete run with choice bit false where
the two derived keystreams differ at position 0, so the unchosen ciphertext
does not decrypt to `m1`. -/
theorem wrong_side_decrypt_ne_witness :
    (∀ x, 0 < (toyHash x).length) ∧
    (∃ i, i < (if false then ([9] : Bytes) else [3]).length ∧
      (keystream_bytes toyHash
        (hash_point toyHash toyCompress
          ((OTSender.new G5 (1 : ZMod 5)).1.private_key •
            (if false then
              (OTReceiver.new G5 false (1 : ZMod 5)
                (OTSender.new G5 (1 : ZMod 5)).2).2.public_key
            else
              (OTReceiver.new G5 false (1 : ZMod 5)
                (OTSender.new G5 (1 : ZMod 5)).2).2.public_key -
                (OTSender.new G5 (1 : ZMod 5)).1.public_key)))
        (if false then ([9] : Bytes) else [3]).length).getD i 0 ≠
      (keystream_bytes toyHash
        (hash_point toyHash toyCompress
          ((OTReceiver.new G5 false (1 : ZMod 5)
            (OTSender.new G5 (1 : ZMod 5)).2).1.private_key •
            (OTSender.new G5 (1 : ZMod 5)).2.public_key))
        (if false then ([9] : Bytes) else [3]).length).getD i 0) ∧
    xor_decrypt toyHash
      (if false then
        (OTSender.send_encrypted toyHash toyCompress
          (OTSender.new G5 (1 : ZMod 5)).1
          (OTReceiver.new G5 false (1 : ZMod 5)
            (OTSender.new G5 (1 : ZMod 5)).2).2 [9] [3]).encrypted_m0
      else
        (OTSender.send_encrypted toyHash toyCompress
          (OTSender.new G5 (1 : ZMod 5)).1
          (OTReceiver.new G5 false (1 : ZMod 5)
            (OTSender.new G5 (1 : ZMod 5)).2).2 [9] [3]).encrypted_m1)
      (hash_point toyHash toyCompress
        ((OTReceiver.new G5 false (1 : ZMod 5)
          (OTSender.new G5 (1 : ZMod 5)).2).1.private_key •
          (OTSender.new G5 (1 : ZMod 5)).2.public_key)) ≠
      (if false then ([9] : Bytes) else [3]) :=
  ⟨toyHash_len, by decide,
    wrong_side_decrypt_ne toyHash toyCompress toyHash_len G5 1 1 false [9]
      [3] (by decide)⟩

/-- C8: malformed input rejection.  A received byte string that does not
decode to a valid group element is surfaced as a rejected-input error
(`none`) by every wire-level operation — receiver initialisation, sender
encryption, and receiver decryption — none of which proceeds on the
undecodable input. -/
theorem wire_reject_undecodable (sha256 : Bytes → Bytes)
    (compress : Point → Bytes) (decode : Bytes → Option Point) (G : Point)
    (choice : Bool) (b : Scalar) (sender : OTSender Scalar Point)
    (receiver : OTReceiver Scalar Point) (msg3 : AliceMessage2)
    (m0 m1 bytes : Bytes) (hbad : decode bytes = none) :
    OTReceiver.new_wire G decode choice b bytes = none ∧
    OTSender.send_encrypted_wire sha256 compress decode sender bytes m0
      m1 = none ∧
    OTReceiver.receive_wire sha256 compress decode receiver msg3 bytes =
      none := by
  unfold OTReceiver.new_wire OTSender.send_encrypted_wire
    OTReceiver.receive_wire
  rw [hbad]
  exact ⟨rfl, rfl, rfl⟩

/-- Witness for C8: the byte string `[9]` does not decode in the concrete
group, and every wire-level operation rejects it. -/
theorem wire_reject_undecodable_witness :
    toyDecode [9] = none ∧
    (OTReceiver.new_wire G5 toyDecode true (1 : ZMod 5) [9] = none ∧
    OTSender.send_encrypted_wire toyHash toyCompress toyDecode
      (OTSender.new G5 (1 : ZMod 5)).1 [9] [1] [2] = none ∧
    OTReceiver.receive_wire toyHash toyCompress toyDecode
      ({ choice := false, private_key := 1, public_key := 1 } :
        OTReceiver (ZMod 5) (ZMod 5))
      { encrypted_m0 := [], encrypted_m1 := [] } [9] = none) :=
  ⟨by decide,
    wire_reject_undecodable toyHash toyCompress toyDecode G5 true 1
      (OTSender.new G5 (1 : ZMod 5)).1
      { choice := false, private_key := 1, public_key := 1 }
      { encrypted_m0 := [], encrypted_m1 := [] } [1] [2] [9] (by decide)⟩

end Claims

end OT
